import Mathlib

/-!
Verification of the myextension batch-job panel.

The pure string utilities (`src/utils.ts`) are embedded over `List Char`:
JavaScript `String.prototype.split` with a single-character separator becomes
`splitOnChar`, `Array.prototype.join` becomes `joinChar`, `Array.prototype.pop`
on the (always non-empty) result of a split becomes `List.getLast?`.
The event-driven UI flows (`src/batchJobManager.ts`) are embedded as explicit
state machines driven by user events.
-/

namespace MyExtension

/-- JS `s.split(sep)` for a one-character separator: always returns a
non-empty list of (possibly empty) segments. -/
def splitOnChar (sep : Char) : List Char → List (List Char)
  | [] => [[]]
  | c :: cs =>
    match splitOnChar sep cs with
    | [] => [[]]
    | g :: gs => if c = sep then [] :: g :: gs else (c :: g) :: gs

/-- JS `xs.join(sep)` for a one-character separator. -/
def joinChar (sep : Char) : List (List Char) → List Char
  | [] => []
  | [x] => x
  | x :: y :: xs => x ++ sep :: joinChar sep (y :: xs)

/-- The job metadata record received from the backend (`types.ts`,
`IBatchJobItem`); all fields are strings on the wire. -/
structure IBatchJobItem where
  name : List Char
  file_path : List Char
  job_id : List Char
  instance_type : List Char
  timestamp : List Char
  extra : List Char
  status : List Char
  console_output : List Char
deriving DecidableEq

/-- Function `shortenId` from `utils.ts`: `job_id.split('-')[0]`. -/
def shortenId (job_id : List Char) : List Char :=
  (splitOnChar '-' job_id).headD []

/-- Function `getStem` from `utils.ts`: identity when the string has no `'.'`,
otherwise `split('.').slice(0, -1).join('.')`. -/
def getStem (filename : List Char) : List Char :=
  if '.' ∈ filename then joinChar '.' ((splitOnChar '.' filename).dropLast)
  else filename

/-- Function `getOutputFilename` from `utils.ts`.  The argument is the result of
`Array.prototype.pop`, hence an `Option`; the JS guard `!filename` is true
both for `undefined` and for the empty string. -/
def getOutputFilename : Option (List Char) → List Char
  | none => ("undefined").toList
  | some f =>
    if f = [] then ("undefined").toList
    else if (splitOnChar '.' f).getLastD [] = ("ipynb").toList then f
    else getStem f ++ (".out").toList

/-- Function `getOutputPath` from `utils.ts`. -/
def getOutputPath (meta : IBatchJobItem) : List Char :=
  let pathComponents := splitOnChar '/' meta.file_path
  let jobNameShort := getStem meta.name
  let filename := pathComponents.getLast?
  let outputFilename := getOutputFilename filename
  let root := joinChar '/' pathComponents.dropLast
  let jobIdShort := shortenId meta.job_id
  root ++ ('/' :: (jobNameShort ++ '_' :: jobIdShort)) ++ '/' :: outputFilename

example : splitOnChar '/' ("a/b/c").toList = [['a'], ['b'], ['c']] := by decide
example : splitOnChar '/' [] = [[]] := by decide
example : splitOnChar '/' ("a/").toList = [['a'], []] := by decide
example : shortenId ("abcd1234-xyz").toList = ("abcd1234").toList := by decide
example : getStem ("nb.ipynb").toList = ("nb").toList := by decide

theorem splitOnChar_cons (sep c : Char) (cs : List Char) :
    splitOnChar sep (c :: cs) =
      match splitOnChar sep cs with
      | [] => [[]]
      | g :: gs => if c = sep then [] :: g :: gs else (c :: g) :: gs := rfl

theorem splitOnChar_ne_nil (sep : Char) (l : List Char) : splitOnChar sep l ≠ [] := by
  induction l with
  | nil => simp [splitOnChar]
  | cons c cs ih =>
    cases h : splitOnChar sep cs with
    | nil => exact absurd h ih
    | cons g gs =>
      simp only [splitOnChar, h]
      split <;> simp

theorem splitOnChar_eq_of_not_mem {sep : Char} {l : List Char} (h : sep ∉ l) :
    splitOnChar sep l = [l] := by
  induction l with
  | nil => rfl
  | cons c cs ih =>
    have hc : ¬ c = sep := fun e => h (e ▸ List.mem_cons_self c cs)
    have hcs : sep ∉ cs := fun m => h (List.mem_cons_of_mem c m)
    simp [splitOnChar, ih hcs, hc]

theorem two_le_length_splitOnChar {sep : Char} {l : List Char} (h : sep ∈ l) :
    2 ≤ (splitOnChar sep l).length := by
  induction l with
  | nil => cases h
  | cons c cs ih =>
    cases hs : splitOnChar sep cs with
    | nil => exact absurd hs (splitOnChar_ne_nil sep cs)
    | cons g gs =>
      by_cases hc : c = sep
      · simp [splitOnChar, hs, hc]
      · rcases List.mem_cons.mp h with e | hmem
        · exact absurd e.symm hc
        · have h2 := ih hmem
          rw [hs] at h2
          simp only [List.length_cons] at h2
          simp [splitOnChar, hs, hc]
          omega

theorem getLast?_splitOnChar_append {sep : Char} (xs : List Char) {ys : List Char}
    (h : sep ∉ ys) : (splitOnChar sep (xs ++ sep :: ys)).getLast? = some ys := by
  induction xs with
  | nil =>
    rw [List.nil_append, splitOnChar_cons, splitOnChar_eq_of_not_mem h]
    dsimp only
    rw [if_pos rfl]
    rfl
  | cons x xs ih =>
    cases hs : splitOnChar sep (xs ++ sep :: ys) with
    | nil => exact absurd hs (splitOnChar_ne_nil _ _)
    | cons g gs =>
      rw [hs] at ih
      rw [List.cons_append, splitOnChar_cons, hs]
      dsimp only
      by_cases hx : x = sep
      · rw [if_pos hx, List.getLast?_cons_cons]
        exact ih
      · rw [if_neg hx]
        cases gs with
        | nil =>
          have hmem : sep ∈ xs ++ sep :: ys :=
            List.mem_append_right _ (List.mem_cons_self _ _)
          have h2 := two_le_length_splitOnChar hmem
          rw [hs] at h2
          simp at h2
        | cons g' gs' =>
          rw [List.getLast?_cons_cons]
          rw [List.getLast?_cons_cons] at ih
          exact ih

theorem not_mem_of_mem_splitOnChar {sep : Char} {l p : List Char}
    (hp : p ∈ splitOnChar sep l) : sep ∉ p := by
  induction l generalizing p with
  | nil =>
    simp [splitOnChar] at hp
    subst hp
    simp
  | cons c cs ih =>
    cases hs : splitOnChar sep cs with
    | nil => exact absurd hs (splitOnChar_ne_nil _ _)
    | cons g gs =>
      by_cases hc : c = sep
      · simp only [splitOnChar, hs, if_pos hc, List.mem_cons] at hp
        rcases hp with rfl | hp
        · simp
        · exact ih (hs ▸ List.mem_cons.mpr hp)
      · simp only [splitOnChar, hs, if_neg hc, List.mem_cons] at hp
        rcases hp with rfl | hp
        · intro hmem
          rcases List.mem_cons.mp hmem with e | e
          · exact hc e.symm
          · exact ih (hs ▸ List.mem_cons_self g gs) e
        · exact ih (hs ▸ List.mem_cons_of_mem g hp)

theorem mem_of_mem_splitOnChar {sep c : Char} {l p : List Char}
    (hp : p ∈ splitOnChar sep l) (hc : c ∈ p) : c ∈ l := by
  induction l generalizing p with
  | nil =>
    simp [splitOnChar] at hp
    subst hp
    cases hc
  | cons a cs ih =>
    cases hs : splitOnChar sep cs with
    | nil => exact absurd hs (splitOnChar_ne_nil _ _)
    | cons g gs =>
      by_cases ha : a = sep
      · simp only [splitOnChar, hs, if_pos ha, List.mem_cons] at hp
        rcases hp with rfl | hp
        · cases hc
        · exact List.mem_cons_of_mem a (ih (hs ▸ List.mem_cons.mpr hp) hc)
      · simp only [splitOnChar, hs, if_neg ha, List.mem_cons] at hp
        rcases hp with rfl | hp
        · rcases List.mem_cons.mp hc with e | e
          · exact e ▸ List.mem_cons_self a cs
          · exact List.mem_cons_of_mem a (ih (hs ▸ List.mem_cons_self g gs) e)
        · exact List.mem_cons_of_mem a (ih (hs ▸ List.mem_cons_of_mem g hp) hc)

theorem mem_joinChar {d c : Char} {xs : List (List Char)} (h : c ∈ joinChar d xs) :
    c = d ∨ ∃ x ∈ xs, c ∈ x := by
  induction xs with
  | nil => simp [joinChar] at h
  | cons x xs ih =>
    cases xs with
    | nil =>
      simp only [joinChar] at h
      exact Or.inr ⟨x, List.mem_cons_self x [], h⟩
    | cons y ys =>
      simp only [joinChar, List.mem_append, List.mem_cons] at h
      rcases h with h | h | h
      · exact Or.inr ⟨x, List.mem_cons_self _ _, h⟩
      · exact Or.inl h
      · rcases ih h with h | ⟨z, hz, hcz⟩
        · exact Or.inl h
        · exact Or.inr ⟨z, List.mem_cons_of_mem x hz, hcz⟩

theorem not_mem_getStem {f : List Char} {c : Char} (hc : c ∉ f) (hcd : c ≠ '.') :
    c ∉ getStem f := by
  unfold getStem
  split
  · intro hmem
    rcases mem_joinChar hmem with e | ⟨x, hx, hcx⟩
    · exact hcd e
    · exact hc (mem_of_mem_splitOnChar (List.dropLast_subset _ hx) hcx)
  · exact hc

theorem slash_not_mem_getOutputFilename (o : Option (List Char))
    (h : ∀ f, o = some f → '/' ∉ f) : '/' ∉ getOutputFilename o := by
  cases o with
  | none =>
    show '/' ∉ ("undefined").toList
    decide
  | some f =>
    have hf : '/' ∉ f := h f rfl
    show '/' ∉ (if f = [] then ("undefined").toList
      else if (splitOnChar '.' f).getLastD [] = ("ipynb").toList then f
      else getStem f ++ (".out").toList)
    by_cases h0 : f = []
    · rw [if_pos h0]
      decide
    · rw [if_neg h0]
      by_cases h1 : (splitOnChar '.' f).getLastD [] = ("ipynb").toList
      · rw [if_pos h1]
        exact hf
      · rw [if_neg h1]
        intro hmem
        rcases List.mem_append.mp hmem with hm | hm
        · exact not_mem_getStem hf (by decide) hm
        · revert hm
          decide

/-! Spec-side definitions, written from the specification's wording (§3 of the
spec), to be compared with the source embedding above. -/

/-- Spec: `root` = `file_path` with its last path segment removed. -/
def specRoot (fp : List Char) : List Char :=
  joinChar '/' ((splitOnChar '/' fp).dropLast)

/-- Spec: `basename(file_path)` = the final `/`-segment of `file_path`
(empty when the path ends in `/` or is empty). -/
def specBasename (fp : List Char) : List Char :=
  (splitOnChar '/' fp).getLastD []

/-- Spec: `stem(s)` = `s` with its final `.`-delimited suffix removed if one
exists, else `s` unchanged. -/
def specStem (s : List Char) : List Char :=
  if '.' ∈ s then joinChar '.' ((splitOnChar '.' s).dropLast) else s

/-- Spec: `shortId(job_id)` = the substring before the first `-`. -/
def specShortId (job_id : List Char) : List Char :=
  (splitOnChar '-' job_id).headD []

/-- Spec: `outputFilename(basename)` = `basename` unchanged if its extension
is exactly `ipynb`, otherwise `stem(basename) + ".out"`; the literal string
`"undefined"` for a missing/empty segment. -/
def specOutputFilename (b : List Char) : List Char :=
  if b = [] then ("undefined").toList
  else if (splitOnChar '.' b).getLastD [] = ("ipynb").toList then b
  else specStem b ++ (".out").toList

/-- Spec: `OutputPath = "<root>/<stem(name)>_<shortId(job_id)>/<outputFilename(basename(file_path))>"`. -/
def specOutputPath (job : IBatchJobItem) : List Char :=
  specRoot job.file_path ++ ('/' :: (specStem job.name ++ '_' :: specShortId job.job_id))
    ++ '/' :: specOutputFilename (specBasename job.file_path)

/-- The final `/`-segment of a path. -/
def finalSegment (s : List Char) : List Char :=
  (splitOnChar '/' s).getLastD []

def exampleJobA : IBatchJobItem :=
  { name := ("Analysis Run").toList, file_path := ("proj/data/input.py").toList,
    job_id := ("abcd1234-xyz").toList, instance_type := [], timestamp := [],
    extra := [], status := [], console_output := [] }

def exampleJobB : IBatchJobItem :=
  { name := ("nb").toList, file_path := ("a/b/nb.ipynb").toList,
    job_id := ("ff-00").toList, instance_type := [], timestamp := [],
    extra := [], status := [], console_output := [] }

def jobSlash : IBatchJobItem :=
  { name := ("j").toList, file_path := ("a/").toList, job_id := ("xyz").toList,
    instance_type := [], timestamp := [], extra := [], status := [],
    console_output := [] }

theorem getOutputFilename_bridge (fp : List Char) :
    getOutputFilename ((splitOnChar '/' fp).getLast?) = specOutputFilename (specBasename fp) := by
  unfold specBasename
  cases hs : splitOnChar '/' fp with
  | nil => exact absurd hs (splitOnChar_ne_nil _ _)
  | cons g gs =>
    rw [List.getLastD_eq_getLast? [] (g :: gs)]
    cases hg : (g :: gs).getLast? with
    | none => simp at hg
    | some x =>
      show getOutputFilename (some x) = specOutputFilename x
      unfold getOutputFilename specOutputFilename specStem getStem
      rfl

theorem finalSegment_append (xs ys : List Char) (h : '/' ∉ ys) :
    finalSegment (xs ++ '/' :: ys) = ys := by
  unfold finalSegment
  rw [List.getLastD_eq_getLast? [] _, getLast?_splitOnChar_append xs h]
  rfl

theorem finalSegment_getOutputPath (job : IBatchJobItem) :
    finalSegment (getOutputPath job) =
      getOutputFilename ((splitOnChar '/' job.file_path).getLast?) := by
  show finalSegment
      ((joinChar '/' (splitOnChar '/' job.file_path).dropLast
        ++ ('/' :: (getStem job.name ++ '_' :: shortenId job.job_id)))
        ++ '/' :: getOutputFilename ((splitOnChar '/' job.file_path).getLast?))
      = getOutputFilename ((splitOnChar '/' job.file_path).getLast?)
  apply finalSegment_append
  apply slash_not_mem_getOutputFilename
  intro f hf
  exact not_mem_of_mem_splitOnChar (List.mem_of_mem_getLast? hf)

/-- C1: `getOutputPath(job)` equals
`root ++ "/" ++ stem(name) ++ "_" ++ shortId(job_id) ++ "/" ++ outputFilename(basename(file_path))`
with the components as the spec defines them, and the two worked examples of
the spec evaluate as stated. -/
theorem claim_C1 (job : IBatchJobItem) :
    getOutputPath job = specOutputPath job
    ∧ getOutputPath exampleJobA = ("proj/data/Analysis Run_abcd1234/input.out").toList
    ∧ getOutputPath exampleJobB = ("a/b/nb_ff/nb.ipynb").toList := by
  refine ⟨?_, by decide, by decide⟩
  show (joinChar '/' (splitOnChar '/' job.file_path).dropLast
      ++ ('/' :: (getStem job.name ++ '_' :: shortenId job.job_id))
      ++ '/' :: getOutputFilename ((splitOnChar '/' job.file_path).getLast?))
      = specOutputPath job
  rw [getOutputFilename_bridge]
  rfl

/-- C2: when the final `/`-segment of `file_path` has final `.`-segment exactly
`ipynb`, the final segment of the output path is that filename unchanged; for
any other non-empty extension it is `stem(filename) ++ ".out"`. -/
theorem claim_C2 (job : IBatchJobItem) :
    ((splitOnChar '.' (specBasename job.file_path)).getLastD [] = ("ipynb").toList →
      '.' ∈ specBasename job.file_path →
      finalSegment (getOutputPath job) = specBasename job.file_path)
    ∧ (∀ ext, '.' ∈ specBasename job.file_path →
        (splitOnChar '.' (specBasename job.file_path)).getLastD [] = ext →
        ext ≠ [] → ext ≠ ("ipynb").toList →
        finalSegment (getOutputPath job) =
          getStem (specBasename job.file_path) ++ (".out").toList) := by
  have hfs : finalSegment (getOutputPath job) =
      specOutputFilename (specBasename job.file_path) := by
    rw [finalSegment_getOutputPath job, getOutputFilename_bridge]
  constructor
  · intro h1 h2
    rw [hfs]
    unfold specOutputFilename
    have hne : specBasename job.file_path ≠ [] := by
      intro e
      rw [e] at h2
      cases h2
    rw [if_neg hne, if_pos h1]
  · intro ext h2 h3 h4 h5
    rw [hfs]
    unfold specOutputFilename
    have hne : specBasename job.file_path ≠ [] := by
      intro e
      rw [e] at h2
      cases h2
    have hnip : ¬ (splitOnChar '.' (specBasename job.file_path)).getLastD []
        = ("ipynb").toList := by
      intro e
      exact h5 (h3.symm.trans e)
    rw [if_neg hne, if_neg hnip]
    rfl

theorem claim_C2_witness :
    finalSegment (getOutputPath exampleJobB) = specBasename exampleJobB.file_path
    ∧ finalSegment (getOutputPath exampleJobA) =
        getStem (specBasename exampleJobA.file_path) ++ (".out").toList :=
  ⟨(claim_C2 exampleJobB).1 (by decide) (by decide),
   (claim_C2 exampleJobA).2 (("py").toList) (by decide) (by decide) (by decide) (by decide)⟩

/-- C3: `getOutputPath` is total: a final segment with no `.` passes through
`getStem` unchanged; an absent/empty final segment (path empty or ending in
`/`) yields the literal output filename `"undefined"`; a `job_id` with no `-`
passes through `shortenId` unchanged. -/
theorem claim_C3 :
    (∀ s : List Char, '.' ∉ s → getStem s = s)
    ∧ (∀ job : IBatchJobItem, (job.file_path = [] ∨ ∃ p, job.file_path = p ++ ['/']) →
        getOutputFilename ((splitOnChar '/' job.file_path).getLast?) = ("undefined").toList)
    ∧ (∀ job_id : List Char, '-' ∉ job_id → shortenId job_id = job_id) := by
  refine ⟨?_, ?_, ?_⟩
  · intro s h
    unfold getStem
    rw [if_neg h]
  · intro job h
    rcases h with h | ⟨p, h⟩
    · rw [h]
      rfl
    · rw [h]
      have hg : (splitOnChar '/' (p ++ ['/'])).getLast? = some [] :=
        getLast?_splitOnChar_append p (by simp)
      rw [hg]
      rfl
  · intro id h
    unfold shortenId
    rw [splitOnChar_eq_of_not_mem h]
    rfl

theorem claim_C3_witness :
    getStem (("abc").toList) = ("abc").toList
    ∧ getOutputFilename ((splitOnChar '/' jobSlash.file_path).getLast?) = ("undefined").toList
    ∧ shortenId (("xyz").toList) = ("xyz").toList :=
  ⟨claim_C3.1 _ (by decide),
   claim_C3.2.1 jobSlash (Or.inr ⟨("a").toList, by decide⟩),
   claim_C3.2.2 _ (by decide)⟩

/-- C10 counterexample: the empty basename contains no `.` and is not
`"ipynb"`, yet `getOutputFilename` returns `"undefined"`, not `"" ++ ".out"`,
so the claim fails at the empty basename. -/
theorem claim_C10_counterexample :
    ('.' ∉ ([] : List Char)) ∧ ([] : List Char) ≠ ("ipynb").toList
    ∧ getOutputFilename (some []) = ("undefined").toList
    ∧ getOutputFilename (some []) ≠ ([] : List Char) ++ (".out").toList := by
  decide

/-- C10 (amended): for every NON-empty basename containing no `.`,
`getOutputFilename` returns `basename ++ ".out"` except when the basename is
exactly `"ipynb"`, which is returned unchanged; a basename of `".ipynb"` is
likewise returned unchanged. -/
theorem claim_C10_amended (f : List Char) (hne : f ≠ []) (hdot : '.' ∉ f) :
    (f ≠ ("ipynb").toList → getOutputFilename (some f) = f ++ (".out").toList)
    ∧ (f = ("ipynb").toList → getOutputFilename (some f) = f)
    ∧ getOutputFilename (some ((".ipynb").toList)) = (".ipynb").toList := by
  have hsplit : splitOnChar '.' f = [f] := splitOnChar_eq_of_not_mem hdot
  have hlast : (splitOnChar '.' f).getLastD [] = f := by
    rw [hsplit]
    rfl
  refine ⟨?_, ?_, by decide⟩
  · intro hnip
    unfold getOutputFilename
    dsimp only
    rw [if_neg hne, hlast, if_neg hnip]
    unfold getStem
    rw [if_neg hdot]
  · intro hip
    unfold getOutputFilename
    dsimp only
    rw [if_neg hne, hlast, if_pos hip]

theorem claim_C10_witness :
    getOutputFilename (some (("data").toList)) = ("data").toList ++ (".out").toList
    ∧ getOutputFilename (some (("ipynb").toList)) = ("ipynb").toList :=
  ⟨(claim_C10_amended (("data").toList) (by decide) (by decide)).1 (by decide),
   (claim_C10_amended (("ipynb").toList) (by decide) (by decide)).2.1 rfl⟩

/-! Function `escapeHtmlAttribute` from `utils.ts`: five sequential global
single-character replaces, embedded as `flatMap`. -/

/-- JS `s.replace(/c/g, rep)` for a single-character pattern `c`. -/
def replaceChar (c : Char) (rep : List Char) (s : List Char) : List Char :=
  s.flatMap (fun x => if x = c then rep else [x])

/-- Function `escapeHtmlAttribute` from `utils.ts`: replaces `&`, then `<`, `>`, `"`,
`'`, in that order. -/
def escapeHtmlAttribute (s : List Char) : List Char :=
  replaceChar '\'' (("&#39;").toList)
    (replaceChar '"' (("&quot;").toList)
      (replaceChar '>' (("&gt;").toList)
        (replaceChar '<' (("&lt;").toList)
          (replaceChar '&' (("&amp;").toList) s))))

/-- Single-pass characterization of the five sequential replaces. -/
def escChar (c : Char) : List Char :=
  if c = '&' then ("&amp;").toList
  else if c = '<' then ("&lt;").toList
  else if c = '>' then ("&gt;").toList
  else if c = '"' then ("&quot;").toList
  else if c = '\'' then ("&#39;").toList
  else [c]

/-- A character that may appear raw in an escaped attribute value. -/
def safeChar (c : Char) : Bool :=
  !(c == '<' || c == '>' || c == '"' || c == '\'')

/-- The entity tails that may follow a `&` in escaped output. -/
def ampEntities : List (List Char) :=
  [("amp;").toList, ("lt;").toList, ("gt;").toList, ("quot;").toList, ("#39;").toList]

/-- Every `&` in the list begins one of `&amp; &lt; &gt; &quot; &#39;`. -/
def ampOk : List Char → Bool
  | [] => true
  | c :: rest =>
    ((c != '&') || ampEntities.any (fun e => e.isPrefixOf rest)) && ampOk rest

example : escapeHtmlAttribute (("<a>&").toList) = ("&lt;a&gt;&amp;").toList := by decide
example : escapeHtmlAttribute (("<script>&" ++ "\"").toList ++ [ '\'' ])
    = ("&lt;script&gt;&amp;&quot;&#39;").toList := by decide

theorem escape_cons (x : Char) (s : List Char) :
    escapeHtmlAttribute (x :: s) = escChar x ++ escapeHtmlAttribute s := by
  by_cases h1 : x = '&'
  · subst h1
    rfl
  by_cases h2 : x = '<'
  · subst h2
    rfl
  by_cases h3 : x = '>'
  · subst h3
    rfl
  by_cases h4 : x = '"'
  · subst h4
    rfl
  by_cases h5 : x = '\''
  · subst h5
    rfl
  simp only [escapeHtmlAttribute, replaceChar, escChar, List.flatMap_cons,
    List.flatMap_append, if_neg h1, if_neg h2, if_neg h3, if_neg h4, if_neg h5,
    List.flatMap_nil, List.append_nil, List.singleton_append, List.nil_append]

theorem ampOk_cons (c : Char) (rest : List Char) :
    ampOk (c :: rest)
      = (((c != '&') || ampEntities.any fun e => e.isPrefixOf rest) && ampOk rest) := rfl

theorem ampOk_cons_of_entity {e : List Char} (he : e ∈ ampEntities) (l : List Char) :
    ampOk ('&' :: (e ++ l)) = ampOk (e ++ l) := by
  rw [ampOk_cons]
  have h : (ampEntities.any fun t => t.isPrefixOf (e ++ l)) = true := by
    rw [List.any_eq_true]
    exact ⟨e, he, List.isPrefixOf_iff_prefix.mpr (List.prefix_append e l)⟩
  rw [h]
  simp

theorem ampOk_append_of_no_amp {e : List Char} (he : ∀ c ∈ e, c ≠ '&')
    (l : List Char) : ampOk (e ++ l) = ampOk l := by
  induction e with
  | nil => rfl
  | cons c cs ih =>
    rw [List.cons_append, ampOk_cons]
    have hc : (c != '&') = true := by
      simpa using he c (List.mem_cons_self _ _)
    rw [hc, ih (fun d hd => he d (List.mem_cons_of_mem c hd))]
    simp

theorem ampOk_escChar_append (x : Char) (l : List Char) :
    ampOk (escChar x ++ l) = ampOk l := by
  by_cases h1 : x = '&'
  · subst h1
    rw [show escChar '&' = '&' :: ("amp;").toList from rfl, List.cons_append,
      ampOk_cons_of_entity (by decide), ampOk_append_of_no_amp (by decide)]
  by_cases h2 : x = '<'
  · subst h2
    rw [show escChar '<' = '&' :: ("lt;").toList from rfl, List.cons_append,
      ampOk_cons_of_entity (by decide), ampOk_append_of_no_amp (by decide)]
  by_cases h3 : x = '>'
  · subst h3
    rw [show escChar '>' = '&' :: ("gt;").toList from rfl, List.cons_append,
      ampOk_cons_of_entity (by decide), ampOk_append_of_no_amp (by decide)]
  by_cases h4 : x = '"'
  · subst h4
    rw [show escChar '"' = '&' :: ("quot;").toList from rfl, List.cons_append,
      ampOk_cons_of_entity (by decide), ampOk_append_of_no_amp (by decide)]
  by_cases h5 : x = '\''
  · subst h5
    rw [show escChar '\'' = '&' :: ("#39;").toList from rfl, List.cons_append,
      ampOk_cons_of_entity (by decide), ampOk_append_of_no_amp (by decide)]
  rw [show escChar x = [x] from by simp [escChar, h1, h2, h3, h4, h5],
    List.singleton_append, ampOk_cons]
  have hx : (x != '&') = true := by simpa using h1
  rw [hx]
  simp

theorem all_safe_escChar_append (x : Char) (l : List Char) :
    (escChar x ++ l).all safeChar = l.all safeChar := by
  by_cases h1 : x = '&'
  · subst h1
    rfl
  by_cases h2 : x = '<'
  · subst h2
    rfl
  by_cases h3 : x = '>'
  · subst h3
    rfl
  by_cases h4 : x = '"'
  · subst h4
    rfl
  by_cases h5 : x = '\''
  · subst h5
    rfl
  simp only [escChar, if_neg h1, if_neg h2, if_neg h3, if_neg h4, if_neg h5,
    List.singleton_append, List.all_cons]
  have hx : safeChar x = true := by
    simp [safeChar, h2, h3, h4, h5]
  rw [hx]
  simp

/-- C8: for every string, the escaped result contains no raw `<`, `>`, `"` or
`'`, and every `&` in it begins one of the entities
`&amp; &lt; &gt; &quot; &#39;`. -/
theorem claim_C8 (s : List Char) :
    (escapeHtmlAttribute s).all safeChar = true
    ∧ ampOk (escapeHtmlAttribute s) = true := by
  induction s with
  | nil => exact ⟨rfl, rfl⟩
  | cons x s ih =>
    constructor
    · rw [escape_cons, all_safe_escChar_append]
      exact ih.1
    · rw [escape_cons, ampOk_escChar_append]
      exact ih.2

/-! Function `fileExists` from `utils.ts`: the collaborator (`ContentsManager.get`)
either succeeds or fails with a JS error that may carry a response whose
`status` is an HTTP status code. -/

structure JsErrorResponse where
  status : Nat
deriving DecidableEq

structure JsError where
  response : Option JsErrorResponse
deriving DecidableEq

/-- Outcome of the awaited `contentsManager.get(relPath)` call. -/
inductive GetOutcome where
  | ok
  | err (e : JsError)
deriving DecidableEq

/-- Function `fileExists` from `utils.ts`: `true` on success; in the catch block,
`false` exactly when the error carries a response with status 404, otherwise
the error is re-thrown. -/
def fileExists : GetOutcome → Except JsError Bool
  | GetOutcome.ok => Except.ok true
  | GetOutcome.err e =>
    match e.response with
    | some r => if r.status = 404 then Except.ok false else Except.error e
    | none => Except.error e

/-- C9: `fileExists` returns `true` when the existence check succeeds, `false`
exactly when the collaborator fails with HTTP status 404, and re-throws every
other error. -/
theorem claim_C9 :
    fileExists GetOutcome.ok = Except.ok true
    ∧ (∀ e : JsError, fileExists (GetOutcome.err e) = Except.ok false
        ↔ ∃ r, e.response = some r ∧ r.status = 404)
    ∧ (∀ e : JsError, (∀ r, e.response = some r → r.status ≠ 404) →
        fileExists (GetOutcome.err e) = Except.error e) := by
  refine ⟨rfl, ?_, ?_⟩
  · intro e
    constructor
    · intro h
      cases hr : e.response with
      | none => simp [fileExists, hr] at h
      | some r =>
        by_cases st : r.status = 404
        · exact ⟨r, rfl, st⟩
        · simp [fileExists, hr, st] at h
    · rintro ⟨r, hr, hst⟩
      simp [fileExists, hr, hst]
  · intro e h
    cases hr : e.response with
    | none => simp [fileExists, hr]
    | some r => simp [fileExists, hr, h r hr]

theorem claim_C9_witness :
    fileExists (GetOutcome.err { response := some { status := 500 } })
      = Except.error { response := some { status := 500 } } :=
  claim_C9.2.2 { response := some { status := 500 } } (by
    intro r hr
    cases hr
    decide)

/-! The per-row delete control (`batchJobManager.ts`, inside `fetchJobs`):
a `Set` of clicked buttons, a 3000 ms disarm timer per arming click, the
label/appearance switch, and the DELETE + refresh on a second click.
Buttons are identified by `Nat` ids; `jobOf` gives each button's
`data-job-id`; `deleteOk` is the outcome of the DELETE request. -/

structure DelState where
  clicked : List Nat
  confirmLabel : List Nat
  timers : List (Nat × Nat)
  deletes : List (List Char)
  refreshes : Nat
deriving DecidableEq

def initDel : DelState :=
  { clicked := [], confirmLabel := [], timers := [], deletes := [], refreshes := 0 }

/-- Fire every pending disarm timer whose scheduled time has passed:
the callback removes the button from the clicked set and restores the
original label/appearance. -/
def fireDue (now : Nat) (s : DelState) : DelState :=
  let due := s.timers.filter (fun tb => tb.1 ≤ now)
  { s with
    clicked := due.foldl (fun acc tb => acc.erase tb.2) s.clicked,
    confirmLabel := due.foldl (fun acc tb => acc.erase tb.2) s.confirmLabel,
    timers := s.timers.filter (fun tb => now < tb.1) }

/-- One activation of a delete button at time `now`: first click arms the
control, switches it to the confirm appearance and schedules a 3000 ms
disarm timer; a click while armed issues one DELETE for the button's job id
and, on success, triggers a refresh. -/
def clickDelete (jobOf : Nat → List Char) (deleteOk : Bool) (s : DelState)
    (now : Nat) (b : Nat) : DelState :=
  let s := fireDue now s
  if b ∈ s.clicked then
    let s := { s with deletes := s.deletes ++ [jobOf b] }
    if deleteOk then { s with refreshes := s.refreshes + 1 } else s
  else
    { s with clicked := s.clicked ++ [b],
             confirmLabel := s.confirmLabel ++ [b],
             timers := s.timers ++ [(now + 3000, b)] }

/-- Process a sequence of (time, button) click events in order. -/
def runClicks (jobOf : Nat → List Char) (deleteOk : Bool) (s : DelState)
    (evs : List (Nat × Nat)) : DelState :=
  evs.foldl (fun s e => clickDelete jobOf deleteOk s e.1 e.2) s

/-- C7: the delete control's two-click state machine: one click arms the
control (confirm appearance) and schedules disarm; with no second click
before the 3 s timer fires, no DELETE is ever issued and the original
appearance is restored; a second click within the window issues exactly one
DELETE for that button's job id, and a refresh when it succeeds; arming is
per control, so a click on a different button does not delete. -/
theorem claim_C7 (jobOf : Nat → List Char) (deleteOk : Bool) (b b' t t' T : Nat) :
    (runClicks jobOf deleteOk initDel [(t, b)]
      = { clicked := [b], confirmLabel := [b], timers := [(t + 3000, b)],
          deletes := [], refreshes := 0 })
    ∧ (t + 3000 ≤ T →
        fireDue T (runClicks jobOf deleteOk initDel [(t, b)])
          = { clicked := [], confirmLabel := [], timers := [], deletes := [],
              refreshes := 0 })
    ∧ (t ≤ t' → t' < t + 3000 →
        (runClicks jobOf deleteOk initDel [(t, b), (t', b)]).deletes = [jobOf b]
        ∧ (runClicks jobOf true initDel [(t, b), (t', b)]).refreshes = 1)
    ∧ (b ≠ b' → t ≤ t' → t' < t + 3000 →
        (runClicks jobOf deleteOk initDel [(t, b), (t', b')]).deletes = []
        ∧ (runClicks jobOf deleteOk initDel [(t, b), (t', b')]).clicked = [b, b']) := by
  have h1 : runClicks jobOf deleteOk initDel [(t, b)]
      = { clicked := [b], confirmLabel := [b], timers := [(t + 3000, b)],
          deletes := [], refreshes := 0 } := by
    simp [runClicks, clickDelete, fireDue, initDel]
  have h1ok : runClicks jobOf true initDel [(t, b)]
      = { clicked := [b], confirmLabel := [b], timers := [(t + 3000, b)],
          deletes := [], refreshes := 0 } := by
    simp [runClicks, clickDelete, fireDue, initDel]
  refine ⟨h1, ?_, ?_, ?_⟩
  · intro hT
    rw [h1]
    simp [fireDue, hT, Nat.not_lt.mpr hT]
  · intro ht ht'
    have hnd : ¬ (t + 3000 ≤ t') := Nat.not_le.mpr ht'
    constructor
    · show (clickDelete jobOf deleteOk (runClicks jobOf deleteOk initDel [(t, b)]) t' b).deletes
        = [jobOf b]
      rw [h1]
      simp [clickDelete, fireDue, hnd]
      split <;> rfl
    · show (clickDelete jobOf true (runClicks jobOf true initDel [(t, b)]) t' b).refreshes = 1
      rw [h1ok]
      simp [clickDelete, fireDue, hnd]
  · intro hbb ht ht'
    have hnd : ¬ (t + 3000 ≤ t') := Nat.not_le.mpr ht'
    constructor
    · show (clickDelete jobOf deleteOk (runClicks jobOf deleteOk initDel [(t, b)]) t' b').deletes
        = []
      rw [h1]
      simp [clickDelete, fireDue, hnd, Ne.symm hbb]
    · show (clickDelete jobOf deleteOk (runClicks jobOf deleteOk initDel [(t, b)]) t' b').clicked
        = [b, b']
      rw [h1]
      simp [clickDelete, fireDue, hnd, Ne.symm hbb]

theorem claim_C7_witness :
    (fireDue 3000 (runClicks (fun _ => ('j' : Char) :: []) false initDel [(0, 0)])).deletes = []
    ∧ (runClicks (fun _ => ('j' : Char) :: []) false initDel [(0, 0), (1000, 0)]).deletes
        = [('j' : Char) :: []]
    ∧ (runClicks (fun _ => ('j' : Char) :: []) false initDel [(0, 0), (1000, 1)]).deletes = [] :=
  ⟨by rw [(claim_C7 (fun _ => ('j' : Char) :: []) false 0 1 0 1000 3000).2.1 (by decide)],
   ((claim_C7 (fun _ => ('j' : Char) :: []) false 0 1 0 1000 3000).2.2.1 (by decide)
     (by decide)).1,
   ((claim_C7 (fun _ => ('j' : Char) :: []) false 0 1 0 1000 3000).2.2.2 (by decide)
     (by decide) (by decide)).1⟩

/-! The refresh path of `batchJobManager.ts`: `fetchJobs` throws a
`NetworkError` on transport failure and a `ResponseError` on a non-success
HTTP status, both before the table body is touched; on success it clears and
rebuilds the table body.  The reload-button handler and `onAfterAttach` both
run `showSpinner(); await fetchJobs(); removeSpinner();` with no catch and no
finally, so on a throw the handler aborts: `removeSpinner` is skipped and no
alert or notification is added.  `showSpinner` schedules a 20 s fallback
timer that removes the spinner element it created. -/

inductive FetchErr where
  | network
  | response (status : Nat)
deriving DecidableEq

/-- Outcome of the GET `/jobs` request; `ok` carries the rendered row
contents (row markup itself is out of scope). -/
inductive FetchOutcome where
  | ok (jobs : List (List Char))
  | networkError
  | httpError (status : Nat)
deriving DecidableEq

structure UIState where
  tableRows : List (List Char)
  alerts : List (List Char)
  notifications : List (List Char)
  spinners : List Nat
  spinnerTimers : List Nat
  nextId : Nat
deriving DecidableEq

/-- Method `showSpinner`: append a fresh spinner element and schedule its 20 s
fallback removal timer. -/
def showSpinnerM (ui : UIState) : UIState :=
  { ui with spinners := ui.spinners ++ [ui.nextId],
            spinnerTimers := ui.spinnerTimers ++ [ui.nextId],
            nextId := ui.nextId + 1 }

/-- Method `removeSpinner`: remove the first element matching the spinner class. -/
def removeSpinnerM (ui : UIState) : UIState :=
  { ui with spinners := ui.spinners.drop 1 }

/-- The 20 s fallback timer scheduled by `showSpinner` fires: the element it
created removes itself (a no-op when already removed). -/
def fireSpinnerTimer (ui : UIState) (id : Nat) : UIState :=
  { ui with spinners := ui.spinners.erase id,
            spinnerTimers := ui.spinnerTimers.erase id }

/-- Method `fetchJobs`: throws before any table mutation on transport/HTTP failure;
on success replaces the table body wholesale. -/
def fetchJobsM (o : FetchOutcome) (ui : UIState) : Except FetchErr UIState :=
  match o with
  | FetchOutcome.networkError => Except.error FetchErr.network
  | FetchOutcome.httpError s => Except.error (FetchErr.response s)
  | FetchOutcome.ok jobs => Except.ok { ui with tableRows := jobs }

/-- The reload-button / `onAfterAttach` handler:
`showSpinner(); await fetchJobs(); removeSpinner();` — no catch, no finally. -/
def refreshHandler (o : FetchOutcome) (ui : UIState) : UIState :=
  let ui1 := showSpinnerM ui
  match fetchJobsM o ui1 with
  | Except.ok ui2 => removeSpinnerM ui2
  | Except.error _ => ui1

def uiWithRows : UIState :=
  { tableRows := [('r' : Char) :: []], alerts := [], notifications := [],
    spinners := [], spinnerTimers := [], nextId := 0 }

/-- C5 counterexample: at the concrete input of a transport-failed refresh
over a rendered table, the table body is indeed unchanged but NO user-visible
error is surfaced — the alert area and the notification list both stay empty,
refuting the claim's "a user-visible error is surfaced". -/
theorem claim_C5_counterexample :
    (refreshHandler FetchOutcome.networkError uiWithRows).tableRows = uiWithRows.tableRows
    ∧ (refreshHandler FetchOutcome.networkError uiWithRows).alerts = []
    ∧ (refreshHandler FetchOutcome.networkError uiWithRows).notifications = [] := by
  decide

/-- C5 (amended): when a refresh fails with a transport error or a
non-success HTTP status, the previously rendered table body is left unchanged
(the error is thrown before any row is cleared or rendered), but no
user-visible error is surfaced on the reload/attach path: the rejection
leaves the alert area and notifications untouched. -/
theorem claim_C5_amended (o : FetchOutcome) (ui : UIState)
    (h : ∀ jobs, o ≠ FetchOutcome.ok jobs) :
    (refreshHandler o ui).tableRows = ui.tableRows
    ∧ (refreshHandler o ui).alerts = ui.alerts
    ∧ (refreshHandler o ui).notifications = ui.notifications := by
  cases o with
  | ok jobs => exact absurd rfl (h jobs)
  | networkError => exact ⟨rfl, rfl, rfl⟩
  | httpError s => exact ⟨rfl, rfl, rfl⟩

theorem claim_C5_witness :
    (refreshHandler (FetchOutcome.httpError 500) uiWithRows).tableRows = uiWithRows.tableRows
    ∧ (refreshHandler (FetchOutcome.httpError 500) uiWithRows).alerts = uiWithRows.alerts
    ∧ (refreshHandler (FetchOutcome.httpError 500) uiWithRows).notifications
        = uiWithRows.notifications :=
  claim_C5_amended (FetchOutcome.httpError 500) uiWithRows (fun _ h => by cases h)

/-- C6 counterexample: after a refresh that fails with a transport error
settles, the spinner element is still present — `removeSpinner` is only
reached on the success path, refuting the claimed finally-equivalent
guarantee. -/
theorem claim_C6_counterexample :
    (refreshHandler FetchOutcome.networkError uiWithRows).spinners = [0]
    ∧ (refreshHandler FetchOutcome.networkError uiWithRows).spinners ≠ [] := by
  decide

/-- C6 (amended): every refresh shows the spinner for the duration of the
request; on the success path it is removed when the refresh settles, but on
the failure path the handler aborts before `removeSpinner`, and the spinner
remains until the 20-second fallback timer scheduled by `showSpinner`
removes it. -/
theorem claim_C6_amended (o : FetchOutcome) (ui : UIState) (h0 : ui.spinners = []) :
    (showSpinnerM ui).spinners = [ui.nextId]
    ∧ (∀ jobs, o = FetchOutcome.ok jobs → (refreshHandler o ui).spinners = [])
    ∧ ((∀ jobs, o ≠ FetchOutcome.ok jobs) →
        (refreshHandler o ui).spinners = [ui.nextId]
        ∧ (fireSpinnerTimer (refreshHandler o ui) ui.nextId).spinners = []) := by
  refine ⟨?_, ?_, ?_⟩
  · simp [showSpinnerM, h0]
  · intro jobs he
    subst he
    simp [refreshHandler, fetchJobsM, showSpinnerM, removeSpinnerM, h0]
  · intro h
    cases o with
    | ok jobs => exact absurd rfl (h jobs)
    | networkError =>
      constructor
      · simp [refreshHandler, fetchJobsM, showSpinnerM, h0]
      · simp [refreshHandler, fetchJobsM, showSpinnerM, fireSpinnerTimer, h0]
    | httpError s =>
      constructor
      · simp [refreshHandler, fetchJobsM, showSpinnerM, h0]
      · simp [refreshHandler, fetchJobsM, showSpinnerM, fireSpinnerTimer, h0]

theorem claim_C6_witness :
    (refreshHandler FetchOutcome.networkError uiWithRows).spinners = [uiWithRows.nextId]
    ∧ (fireSpinnerTimer (refreshHandler FetchOutcome.networkError uiWithRows)
        uiWithRows.nextId).spinners = [] :=
  (claim_C6_amended FetchOutcome.networkError uiWithRows rfl).2.2 (fun _ h => by cases h)

/-! The job-creation flow (`showCreateJobDialog` in `batchJobManager.ts`).

The code keeps one shared form body (the same `body` widget is reused by
every re-opened dialog), an array `queue` of promises, and a while loop
`while (queue.length > 0) { const result = await queue.pop(); ... }` that
awaits the MOST RECENT promise and treats a settlement as a submit only when
`result.button.label === 'Create Job' && result.button.accept`.  The Browse
handler pushes the picker promise, rejects the current dialog (settling it
with the cancel button), prefills the fields from an accepted pick, then
opens a fresh dialog over the same body and pushes its launch.  After the
loop ends, `addJob` is called once — with the field values read from the
shared body at that moment — iff some settlement passed the submit check.

The single-threaded event-loop execution of this code is compiled into an
event-driven state machine: each user event performs the synchronous handler
work and then lets the while loop drain the queue (pop from the end,
re-checking each settled result, stopping at a pending promise). -/

inductive PendingKind where
  | dialog
  | picker
deriving DecidableEq

/-- A dialog settlement: the button it resolved with. -/
structure BtnResult where
  label : List Char
  accept : Bool
deriving DecidableEq

/-- Value `Dialog.cancelButton()` — also the value a rejected dialog settles with. -/
def cancelBtn : BtnResult := { label := ("Cancel").toList, accept := false }

/-- The job-definition dialog's accept button, labelled `Create Job`. -/
def createJobBtn : BtnResult := { label := ("Create Job").toList, accept := true }

/-- The file picker's settlement: its accept button is not labelled
`Create Job`. -/
def pickerResult (accept : Bool) : BtnResult :=
  { label := ("Select").toList, accept := accept }

/-- The while loop's submit check:
`result.button.label === 'Create Job' && result.button.accept`. -/
def isSubmitResult (r : BtnResult) : Bool :=
  (r.label == ("Create Job").toList) && r.accept

/-- An entry of the `queue` array: a still-pending promise of a known kind,
or an already-settled one. -/
inductive QItem where
  | pending (k : PendingKind)
  | settled (r : BtnResult)
deriving DecidableEq

/-- The four form fields of the shared dialog body. -/
structure Fields where
  name : List Char
  filePath : List Char
  instanceType : List Char
  maxCoinsPerHour : List Char
deriving DecidableEq

structure FlowState where
  fields : Fields
  queue : List QItem
  awaiting : Option PendingKind
  valuesEntered : Bool
  finished : Bool
  addJobCalls : List Fields
deriving DecidableEq

/-- The code after the while loop: read the current field values from the
shared body and call `addJob` once iff a settlement passed the submit
check. -/
def finishFlow (s : FlowState) : FlowState :=
  { s with finished := true,
           addJobCalls :=
             if s.valuesEntered then s.addJobCalls ++ [s.fields] else s.addJobCalls }

/-- The while loop, acting on the reversed queue (`queue.pop()` takes the
most recent entry): fold the submit check over settled entries until a
pending promise (which the loop then awaits) or the end of the queue. -/
def drainRev (ve : Bool) : List QItem → Bool × Option PendingKind × List QItem
  | [] => (ve, none, [])
  | QItem.settled r :: rest => drainRev (ve || isSubmitResult r) rest
  | QItem.pending k :: rest => (ve, some k, rest)

/-- Resume the while loop after the awaited promise settled. -/
def drain (s : FlowState) : FlowState :=
  match drainRev s.valuesEntered s.queue.reverse with
  | (ve, none, _) =>
    finishFlow { s with valuesEntered := ve, queue := [], awaiting := none }
  | (ve, some k, restRev) =>
    { s with valuesEntered := ve, queue := restRev.reverse, awaiting := some k }

/-- The loop body's handling of the settlement of the promise it was
awaiting. -/
def processResult (s : FlowState) (r : BtnResult) : FlowState :=
  { s with valuesEntered := s.valuesEntered || isSubmitResult r, awaiting := none }

/-- User events driving the flow while it is suspended on a dialog or the
picker. -/
inductive Ev where
  | browse
  | pickerDone (accept : Bool) (files : List (List Char × List Char))
  | edit (f : Fields → Fields)
  | confirm
  | cancel

/-- The Browse handler's prefill: on an accepted non-empty pick, set the
name and file-path fields from the first picked file. -/
def prefill (fields : Fields) (accept : Bool)
    (files : List (List Char × List Char)) : Fields :=
  if accept && !files.isEmpty
  then { fields with name := (files.headD ([], [])).1,
                     filePath := (files.headD ([], [])).2 }
  else fields

/-- One user event: the synchronous handler work, the settlement of the
awaited promise, and the loop resuming.
`browse` pushes the picker promise and rejects the current dialog (settling
it with `cancelBtn`); `pickerDone` first runs the rest of the Browse handler
(prefill, push a fresh dialog launch) and then lets the loop process the
picker's settlement; `confirm`/`cancel` settle the current dialog. -/
def step (s : FlowState) (e : Ev) : FlowState :=
  if s.finished then s
  else
    match e, s.awaiting with
    | Ev.browse, some PendingKind.dialog =>
      drain (processResult
        { s with queue := s.queue ++ [QItem.pending PendingKind.picker] } cancelBtn)
    | Ev.pickerDone acc files, some PendingKind.picker =>
      drain (processResult
        { s with fields := prefill s.fields acc files,
                 queue := s.queue ++ [QItem.pending PendingKind.dialog] }
        (pickerResult acc))
    | Ev.edit f, some PendingKind.dialog => { s with fields := f s.fields }
    | Ev.confirm, some PendingKind.dialog => drain (processResult s createJobBtn)
    | Ev.cancel, some PendingKind.dialog => drain (processResult s cancelBtn)
    | _, _ => s

/-- Entry of `showCreateJobDialog`: push the first dialog launch and enter the
loop. -/
def startFlow (f0 : Fields) : FlowState :=
  drain { fields := f0, queue := [QItem.pending PendingKind.dialog],
          awaiting := none, valuesEntered := false, finished := false,
          addJobCalls := [] }

def runFlow (f0 : Fields) (evs : List Ev) : FlowState :=
  evs.foldl step (startFlow f0)

/-- One browse-cycle: the user may edit the fields in the open dialog, then
clicks Browse; the picker settles with `acc`/`files`; a fresh dialog opens. -/
structure Cycle where
  pre : Fields → Fields
  acc : Bool
  files : List (List Char × List Char)

def cycleEvents (c : Cycle) : List Ev :=
  [Ev.edit c.pre, Ev.browse, Ev.pickerDone c.acc c.files]

def browseScript (cycles : List Cycle) : List Ev :=
  (cycles.map cycleEvents).flatten

/-- Expected effect of one browse-cycle on the form fields. -/
def applyCycle (f : Fields) (c : Cycle) : Fields :=
  prefill (c.pre f) c.acc c.files

/-- Flow suspended on an open job-definition dialog over fields `f`. -/
def midState (f : Fields) : FlowState :=
  { fields := f, queue := [], awaiting := some PendingKind.dialog,
    valuesEntered := false, finished := false, addJobCalls := [] }

/-- Flow suspended on the file picker, fields `f`. -/
def pickerWait (f : Fields) : FlowState :=
  { fields := f, queue := [], awaiting := some PendingKind.picker,
    valuesEntered := false, finished := false, addJobCalls := [] }

theorem startFlow_eq (f0 : Fields) : startFlow f0 = midState f0 := rfl

theorem step_edit (f : Fields) (g : Fields → Fields) :
    step (midState f) (Ev.edit g) = midState (g f) := rfl

theorem step_browse (f : Fields) : step (midState f) Ev.browse = pickerWait f := by
  have hc : isSubmitResult cancelBtn = false := by decide
  simp [step, midState, pickerWait, processResult, drain, drainRev, hc]

theorem step_pickerDone (f : Fields) (acc : Bool)
    (files : List (List Char × List Char)) :
    step (pickerWait f) (Ev.pickerDone acc files) = midState (prefill f acc files) := by
  have hp : ∀ a, isSubmitResult (pickerResult a) = false := by decide
  simp [step, midState, pickerWait, processResult, drain, drainRev, hp]

theorem step_confirm (f : Fields) :
    step (midState f) Ev.confirm
      = { fields := f, queue := [], awaiting := none, valuesEntered := true,
          finished := true, addJobCalls := [f] } := by
  have hc : isSubmitResult createJobBtn = true := by decide
  simp [step, midState, processResult, drain, drainRev, finishFlow, hc]

theorem cycle_run (f : Fields) (c : Cycle) :
    (cycleEvents c).foldl step (midState f) = midState (applyCycle f c) := by
  show step (step (step (midState f) (Ev.edit c.pre)) Ev.browse)
      (Ev.pickerDone c.acc c.files) = midState (applyCycle f c)
  rw [step_edit, step_browse, step_pickerDone]
  rfl

theorem browse_cycles_run (cycles : List Cycle) (f : Fields) :
    (browseScript cycles).foldl step (midState f)
      = midState (cycles.foldl applyCycle f) := by
  induction cycles generalizing f with
  | nil => rfl
  | cons c cs ih =>
    show ((cycleEvents c ++ browseScript cs).foldl step (midState f)) = _
    rw [List.foldl_append, cycle_run]
    exact ih (applyCycle f c)

/-- C4: for every number of browse-cycles (each rejecting the current
job-definition dialog for the file picker and reopening a fresh dialog over
the same form body) followed by one accepted Create Job confirm, exactly one
`addJob` call fires, and its arguments are the field values present at the
moment of that final confirm; before the confirm no settlement — neither a
rejected dialog's cancel nor a picker result — ever passes the submit check,
so no stale settlement is acted upon as a submit. -/
theorem claim_C4 (f0 : Fields) (cycles : List Cycle) (finalEdit : Fields → Fields) :
    (runFlow f0 (browseScript cycles ++ [Ev.edit finalEdit, Ev.confirm])).addJobCalls
        = [finalEdit (cycles.foldl applyCycle f0)]
    ∧ (runFlow f0 (browseScript cycles ++ [Ev.edit finalEdit, Ev.confirm])).finished = true
    ∧ (runFlow f0 (browseScript cycles)).addJobCalls = []
    ∧ (runFlow f0 (browseScript cycles)).valuesEntered = false := by
  have hrun : ∀ evs, runFlow f0 evs = evs.foldl step (midState f0) := by
    intro evs
    unfold runFlow
    rw [startFlow_eq]
  refine ⟨?_, ?_, ?_, ?_⟩
  · rw [hrun, List.foldl_append, browse_cycles_run]
    show (step (step (midState _) (Ev.edit finalEdit)) Ev.confirm).addJobCalls = _
    rw [step_edit, step_confirm]
  · rw [hrun, List.foldl_append, browse_cycles_run]
    show (step (step (midState _) (Ev.edit finalEdit)) Ev.confirm).finished = true
    rw [step_edit, step_confirm]
  · rw [hrun, browse_cycles_run]
    rfl
  · rw [hrun, browse_cycles_run]
    rfl

end MyExtension
